import Mathlib

/-!
Verification of the netrc parser (src/lib.rs).

Strings from the source are modelled as lists of characters (`Str`).  The
tokenizer cursor is a byte index into the UTF-8 encoding of the line, as in
the source, and is advanced once per character, also as in the source; the
byte slice `&self.buf[self.cur..]` is modelled by `byteRemaining`, whose
`none` result models the source's panic on slicing at a byte index that is
not a character boundary.  This panic propagates through the lexer and the
parser as an outer `Option` (`none` = panic).  Whitespace classification
models Rust's Unicode `char::is_whitespace`.

The two recursive loops of the source (`Lexer::next_word` and the parse
loop) are written with an explicit fuel argument: a refill consumes at
least one character of the unread input, and every parse-loop iteration
advances the byte cursor by at least one unit or terminates, so fuel
`buf.length + 1` (respectively `byteLen input + 1`) always suffices.  All
definitions are structurally recursive and evaluate by kernel reduction.
-/

set_option linter.unusedVariables false

instance {ε α : Type} [DecidableEq ε] [DecidableEq α] : DecidableEq (Except ε α) :=
  fun a b =>
    match a, b with
    | Except.ok x, Except.ok y =>
      if h : x = y then Decidable.isTrue (by rw [h])
      else Decidable.isFalse (by intro hc; cases hc; exact h rfl)
    | Except.error x, Except.error y =>
      if h : x = y then Decidable.isTrue (by rw [h])
      else Decidable.isFalse (by intro hc; cases hc; exact h rfl)
    | Except.ok _, Except.error _ => Decidable.isFalse (by intro hc; cases hc)
    | Except.error _, Except.ok _ => Decidable.isFalse (by intro hc; cases hc)

abbrev Str := List Char

/-- Represents a macro record `Macro(name, body)` of the source. -/
structure MacroEntry where
  name : Str
  body : Str
  deriving DecidableEq, Repr

/-- Represents a machine record of a Netrc file. -/
structure Machine where
  login : Str
  password : Option Str
  account : Option Str
  port : Option Nat
  deriving DecidableEq, Repr

/-- The `Default::default()` machine: all fields unset. -/
def Machine.init : Machine := ⟨[], none, none, none⟩

/-- Represents a host entry `Host(name, machine)` of the source. -/
structure Host where
  name : Str
  machine : Machine
  deriving DecidableEq, Repr

/-- Represents a Netrc aggregate. -/
structure Netrc where
  hosts : List Host
  default : Option Machine
  macros : List MacroEntry
  deriving DecidableEq, Repr

/-- The empty aggregate `Default::default()` for `Netrc`. -/
def Netrc.init : Netrc := ⟨[], none, []⟩

/-- The `ErrorKind::Parse(msg, lnum)` error of the source. -/
structure ParseError where
  msg : String
  lnum : Nat
  deriving DecidableEq, Repr

/-- The `MachineRef` enum of the source: the transient current-target. -/
inductive MachineRef where
  | Nothing
  | Default
  | Host (n : Nat)
  deriving DecidableEq, Repr

/-- Modelled from Rust's standard library: `char::is_whitespace`, the
Unicode White_Space property (not part of this repository). -/
def isWS (c : Char) : Bool :=
  c.toNat = 0x09 || c.toNat = 0x0A || c.toNat = 0x0B || c.toNat = 0x0C ||
  c.toNat = 0x0D || c.toNat = 0x20 || c.toNat = 0x85 || c.toNat = 0xA0 ||
  c.toNat = 0x1680 || (0x2000 ≤ c.toNat && c.toNat ≤ 0x200A) ||
  c.toNat = 0x2028 || c.toNat = 0x2029 || c.toNat = 0x202F ||
  c.toNat = 0x205F || c.toNat = 0x3000

/-- The UTF-8 encoded length of a character, as used by Rust `String`. -/
def utf8Size (c : Char) : Nat :=
  if c.toNat < 0x80 then 1
  else if c.toNat < 0x800 then 2
  else if c.toNat < 0x10000 then 3
  else 4

/-- The UTF-8 byte length of a string, as returned by Rust `str::len`. -/
def byteLen : Str → Nat
  | [] => 0
  | c :: cs => utf8Size c + byteLen cs

/-- The characters of `l` from byte offset `n`, or `none` when `n` is not a
character boundary or lies past the end — Rust's string slicing panics
there. -/
def byteRemaining : Str → Nat → Option Str
  | l, 0 => some l
  | [], _ + 1 => none
  | c :: cs, n + 1 =>
    if utf8Size c ≤ n + 1 then byteRemaining cs (n + 1 - utf8Size c) else none

/-- The `Tokens` struct: one line of text and a byte-indexed cursor into
it, as in the source. -/
structure Tokens where
  buf : Str
  cur : Nat
  deriving DecidableEq, Repr

/-- Models `Tokens::new`. -/
def Tokens.new (buf : Str) : Tokens := ⟨buf, 0⟩

/-- Models `Tokens::empty`. -/
def Tokens.empty : Tokens := ⟨[], 0⟩

/-- Models `Tokens::remaining`, the byte slice `&self.buf[self.cur..]`;
`none` is the source's panic at a non-boundary byte index. -/
def Tokens.remaining (t : Tokens) : Option Str := byteRemaining t.buf t.cur

/-- Models `Tokens::next`: skip whitespace, then collect the next word.
The cursor is advanced once per character, the stop test compares it
against the byte length, and the text is re-sliced at the updated cursor,
all as in the source; the outer `none` is a slicing panic. -/
def Tokens.next (t : Tokens) : Option (Option Str × Tokens) :=
  match Tokens.remaining t with
  | none => none
  | some rem =>
    let cur := t.cur + (rem.takeWhile isWS).length
    if cur < byteLen t.buf then
      match byteRemaining t.buf cur with
      | none => none
      | some rem2 =>
        let s := rem2.takeWhile (fun c => !(isWS c))
        some (some s, ⟨t.buf, cur + s.length⟩)
    else some (none, ⟨t.buf, cur⟩)

/-- Models `BufRead::read_line` on an in-memory buffer: split off the first
line, up to and including its `'\n'` terminator (or the whole buffer when no
terminator remains).  Returns the line and the rest of the buffer. -/
def splitLine : Str → Str × Str
  | [] => ([], [])
  | c :: cs =>
    if c = '\n' then (['\n'], cs)
    else
      let (l, r) := splitLine cs
      (c :: l, r)

/-- The `Lexer` struct: the unread input, the current line's tokenizer and
the 1-based line counter (0 before any line is read). -/
structure Lexer where
  buf : Str
  line : Tokens
  lnum : Nat
  deriving DecidableEq, Repr

/-- Models `Lexer::new`. -/
def Lexer.new (buf : Str) : Lexer := ⟨buf, Tokens.empty, 0⟩

/-- Models `Lexer::read_line`: read one line from the source, appending it
to the given buffer; the returned count is the number of bytes read, and
the line counter advances exactly when it is nonzero. -/
def Lexer.read_line (lx : Lexer) (buf : Str) : (Nat × Str) × Lexer :=
  let (l, rest) := splitLine lx.buf
  ((byteLen l, buf ++ l), ⟨rest, lx.line, if byteLen l = 0 then lx.lnum else lx.lnum + 1⟩)

/-- Models `Lexer::refill`: read the next line and re-tokenize it. -/
def Lexer.refill (lx : Lexer) : Nat × Lexer :=
  let r := Lexer.read_line lx []
  (r.1.1, ⟨r.2.buf, Tokens.new r.1.2, r.2.lnum⟩)

/-- Models `Lexer::next_word` with fuel: take the next word of the current
line, refilling from the source when the line is exhausted; `some none` at
end of input, outer `none` for a tokenizer panic.  Each refill consumes at
least one character of `buf`, so `buf.length + 1` fuel always suffices. -/
def Lexer.next_wordF : Nat → Lexer → Option (Option Str × Lexer)
  | 0, lx => some (none, lx)
  | fuel + 1, lx =>
    match Tokens.next lx.line with
    | none => none
    | some (some w, t') => some (some w, ⟨lx.buf, t', lx.lnum⟩)
    | some (none, t') =>
      let r := Lexer.refill ⟨lx.buf, t', lx.lnum⟩
      if r.1 = 0 then some (none, r.2) else Lexer.next_wordF fuel r.2

/-- Models `Lexer::next_word`. -/
def Lexer.next_word (lx : Lexer) : Option (Option Str × Lexer) :=
  Lexer.next_wordF (lx.buf.length + 1) lx

/-- Models `Lexer::next_word_or_err`: as `next_word` but end of input
becomes a parse error carrying the current line number. -/
def Lexer.next_word_or_err (lx : Lexer) : Option (Except ParseError Str × Lexer) :=
  match Lexer.next_word lx with
  | none => none
  | some (some w, lx') => some (Except.ok w, lx')
  | some (none, lx') => some (Except.error ⟨"Unexpected end of file", lx'.lnum⟩, lx')

/-- The loop of `Lexer::next_subcommands` with fuel: append raw lines until
one of at most one byte (`Ok(0...1)` in the source) is read. -/
def Lexer.next_subcommandsAuxF : Nat → Lexer → Str → Str × Lexer
  | 0, lx, cmds => (cmds, lx)
  | fuel + 1, lx, cmds =>
    let r := Lexer.read_line lx cmds
    if r.1.1 ≤ 1 then (r.1.2, r.2) else Lexer.next_subcommandsAuxF fuel r.2 r.1.2

/-- Models `Lexer::next_subcommands`: start from the remainder (the byte
slice at the current cursor — `none` is its panic) of the current line,
discard the line tokenizer, then append whole raw lines until a blank line
(or end of input). -/
def Lexer.next_subcommands (lx : Lexer) : Option (Str × Lexer) :=
  match Tokens.remaining lx.line with
  | none => none
  | some rem =>
    some (Lexer.next_subcommandsAuxF (lx.buf.length + 1) ⟨lx.buf, Tokens.empty, lx.lnum⟩ rem)

/-- Decimal value of a digit string. -/
def digitsVal (l : Str) : Nat := l.foldl (fun a c => a * 10 + (c.toNat - 48)) 0

/-- Modelled from Rust's standard library: `str::parse::<u16>` (the `FromStr`
implementation for `u16`, used by the source's `port` branch and not part of
this repository): an optional leading `+`, then one or more ASCII digits,
with a value below 2^16. -/
def parseU16 (s : Str) : Option Nat :=
  let ds := match s with
    | '+' :: rest => rest
    | _ => s
  if ds ≠ [] ∧ ds.all Char.isDigit then
    if digitsVal ds < 65536 then some (digitsVal ds) else none
  else none

/-- The closed set of entry keywords matched by `Netrc::parse_entry`. -/
inductive Entry where
  | machineK | defaultK | loginK | passwordK | accountK | portK | macdefK | unknownK
  deriving DecidableEq, Repr

/-- Keyword dispatch of the `match item` in `Netrc::parse_entry`. -/
def entryOf : Str → Entry
  | ['m', 'a', 'c', 'h', 'i', 'n', 'e'] => .machineK
  | ['d', 'e', 'f', 'a', 'u', 'l', 't'] => .defaultK
  | ['l', 'o', 'g', 'i', 'n'] => .loginK
  | ['p', 'a', 's', 's', 'w', 'o', 'r', 'd'] => .passwordK
  | ['a', 'c', 'c', 'o', 'u', 'n', 't'] => .accountK
  | ['p', 'o', 'r', 't'] => .portK
  | ['m', 'a', 'c', 'd', 'e', 'f'] => .macdefK
  | _ => .unknownK

/-- Models `Netrc::find_machine`: resolve the current-target reference.
For `Host n` the source indexes `self.hosts[n]` under `Some` (panicking if
out of bounds); the reachability invariant proved below shows `n` is always
in bounds, where the two agree. -/
def Netrc.find_machine (netrc : Netrc) (reference : MachineRef) : Option Machine :=
  match reference with
  | .Nothing => none
  | .Default => netrc.default
  | .Host n => (netrc.hosts[n]?).map Host.machine

/-- Write a machine record back at position `n` of the host list, keeping
the host name (the source mutates through `&mut self.hosts[n].1`). -/
def setMachineAt : List Host → Nat → Machine → List Host
  | [], _, _ => []
  | h :: hs, 0, m => ⟨h.name, m⟩ :: hs
  | h :: hs, n + 1, m => h :: setMachineAt hs n m

/-- Write a machine record back through a current-target reference. -/
def Netrc.set_machine (netrc : Netrc) (reference : MachineRef) (m : Machine) : Netrc :=
  match reference with
  | .Nothing => netrc
  | .Default => { netrc with default := some m }
  | .Host n => { netrc with hosts := setMachineAt netrc.hosts n m }

/-- Models the `with_current_machine!` macro of the source: resolve the
current target; if none, fail with "No machine defined for <entry>" at the
current line number; otherwise run the body on the target machine and
write the result back, returning the unchanged current target.  A panic in
the body (outer `none`) propagates. -/
def Netrc.with_current_machine (netrc : Netrc) (lx : Lexer) (cm : MachineRef)
    (entry : String)
    (body : Machine → Lexer → Option (Except ParseError Machine × Lexer)) :
    Option (Except ParseError MachineRef × Netrc × Lexer) :=
  match Netrc.find_machine netrc cm with
  | some m =>
    match body m lx with
    | none => none
    | some (Except.ok m', lx') => some (Except.ok cm, Netrc.set_machine netrc cm m', lx')
    | some (Except.error e, lx') => some (Except.error e, netrc, lx')
  | none => some (Except.error ⟨"No machine defined for " ++ entry, lx.lnum⟩, netrc, lx)

/-- Models `Netrc::parse_entry`: dispatch one entry keyword, returning the
new current target (or a parse error) together with the updated aggregate
and lexer; the outer `none` is a tokenizer panic. -/
def Netrc.parse_entry (netrc : Netrc) (lx : Lexer) (item : Str) (cm : MachineRef) :
    Option (Except ParseError MachineRef × Netrc × Lexer) :=
  match entryOf item with
  | .machineK =>
    match Lexer.next_word_or_err lx with
    | none => none
    | some (Except.ok host_name, lx') =>
      let hosts' := netrc.hosts ++ [⟨host_name, Machine.init⟩]
      some (Except.ok (.Host (hosts'.length - 1)), { netrc with hosts := hosts' }, lx')
    | some (Except.error e, lx') => some (Except.error e, netrc, lx')
  | .defaultK =>
    some (Except.ok .Default, { netrc with default := some Machine.init }, lx)
  | .loginK =>
    Netrc.with_current_machine netrc lx cm "login" (fun m lx =>
      match Lexer.next_word_or_err lx with
      | none => none
      | some (Except.ok w, lx') => some (Except.ok { m with login := w }, lx')
      | some (Except.error e, lx') => some (Except.error e, lx'))
  | .passwordK =>
    Netrc.with_current_machine netrc lx cm "password" (fun m lx =>
      match Lexer.next_word_or_err lx with
      | none => none
      | some (Except.ok w, lx') => some (Except.ok { m with password := some w }, lx')
      | some (Except.error e, lx') => some (Except.error e, lx'))
  | .accountK =>
    Netrc.with_current_machine netrc lx cm "account" (fun m lx =>
      match Lexer.next_word_or_err lx with
      | none => none
      | some (Except.ok w, lx') => some (Except.ok { m with account := some w }, lx')
      | some (Except.error e, lx') => some (Except.error e, lx'))
  | .portK =>
    Netrc.with_current_machine netrc lx cm "port" (fun m lx =>
      match Lexer.next_word_or_err lx with
      | none => none
      | some (Except.ok port, lx') =>
        match parseU16 port with
        | some p => some (Except.ok { m with port := some p }, lx')
        | none =>
          some (Except.error ⟨"Unable to parse port number `" ++ String.mk port ++ "'",
            lx'.lnum⟩, lx')
      | some (Except.error e, lx') => some (Except.error e, lx'))
  | .macdefK =>
    match Lexer.next_word_or_err lx with
    | none => none
    | some (Except.ok name, lx') =>
      match Lexer.next_subcommands lx' with
      | none => none
      | some r =>
        some (Except.ok .Nothing,
          { netrc with macros := netrc.macros ++ [⟨name, r.1⟩] }, r.2)
    | some (Except.error e, lx') => some (Except.error e, netrc, lx')
  | .unknownK =>
    some (Except.error ⟨"Unknown entry `" ++ String.mk item ++ "'", lx.lnum⟩, netrc, lx)

/-- The loop of `Netrc::parse` with fuel: pull words and dispatch them,
stopping cleanly at end of input; the outer `none` is a panic.  Every
iteration advances the byte cursor of the current line by at least one
or terminates, and refills only move bytes from `buf` to the line, so
`byteLen input + 1` fuel always suffices. -/
def Netrc.parseLoopF : Nat → Netrc → Lexer → MachineRef → Option (Except ParseError Netrc)
  | 0, netrc, _, _ => some (Except.ok netrc)
  | fuel + 1, netrc, lx, cm =>
    match Lexer.next_word lx with
    | none => none
    | some (none, _) => some (Except.ok netrc)
    | some (some w, lx') =>
      match Netrc.parse_entry netrc lx' w cm with
      | none => none
      | some (Except.error e, _, _) => some (Except.error e)
      | some (Except.ok cm', netrc', lx'') => Netrc.parseLoopF fuel netrc' lx'' cm'

/-- Models `Netrc::parse`: parse an input buffer into a `Netrc` aggregate;
`none` models a panic of the byte-indexed tokenizer. -/
def Netrc.parse (input : Str) : Option (Except ParseError Netrc) :=
  Netrc.parseLoopF (byteLen input + 1) Netrc.init (Lexer.new input) MachineRef.Nothing

/-! ### Specification-side definitions

`specCapture` is written from the specification's words, for comparison
with `Lexer.next_subcommands`: the raw block is the whole physical lines up
to and including the first blank (empty or newline-only) line, or all
remaining lines when no blank line follows. -/

/-- The physical lines of a buffer, each including its terminator (the last
line may lack one). -/
def linesOf : Str → List Str
  | [] => []
  | c :: cs =>
    if c = '\n' then ['\n'] :: linesOf cs
    else
      match linesOf cs with
      | [] => [[c]]
      | l :: ls => (c :: l) :: ls

/-- A blank line: empty or newline-only. -/
def isBlankLine (l : Str) : Bool := decide (l = [] ∨ l = ['\n'])

/-- The lines up to and including the first blank line (all lines when no
blank line occurs). -/
def takeThroughBlank : List Str → List Str
  | [] => []
  | l :: ls => if isBlankLine l then [l] else l :: takeThroughBlank ls

/-- Modelled from the spec: the captured raw block of a macro body, starting
after the current line. -/
def specCapture (buf : Str) : Str := (takeThroughBlank (linesOf buf)).flatten

/-- A word as produced by the tokenizer: nonempty, no whitespace. -/
def IsWord (w : Str) : Prop := w ≠ [] ∧ ∀ c ∈ w, isWS c = false

instance : DecidablePred IsWord := fun w => by
  unfold IsWord; infer_instance

/-- A string of single-byte (ASCII) characters, on which the source's
byte-indexed cursor coincides with a character count. -/
def Ascii (w : Str) : Prop := ∀ c ∈ w, utf8Size c = 1

instance : DecidablePred Ascii := fun w => by
  unfold Ascii; infer_instance

/-- The tail of a lexer line after a word: either exhausted or starting
with a whitespace separator. -/
def HeadWS (r : Str) : Prop := r = [] ∨ ∃ c r', r = c :: r' ∧ isWS c = true

/-- The aggregate/current-target states reachable by the parse loop:
the initial empty state, closed under successful entry dispatch. -/
inductive Reachable : Netrc → MachineRef → Prop where
  | init : Reachable Netrc.init MachineRef.Nothing
  | step (netrc : Netrc) (cm : MachineRef) (lx : Lexer) (w : Str)
      (cm' : MachineRef) (netrc' : Netrc) (lx' : Lexer) : Reachable netrc cm →
      Netrc.parse_entry netrc lx w cm = some (Except.ok cm', netrc', lx') →
      Reachable netrc' cm'

/-! ### Byte-arithmetic helpers -/

lemma utf8Size_pos (c : Char) : 1 ≤ utf8Size c := by
  unfold utf8Size
  split_ifs <;> omega

lemma byteLen_ascii : ∀ {l : Str}, (∀ c ∈ l, utf8Size c = 1) → byteLen l = l.length
  | [], _ => rfl
  | c :: cs, h => by
    have hc : utf8Size c = 1 := h c (by simp)
    have ih := byteLen_ascii (l := cs) (fun x hx => h x (by simp [hx]))
    simp [byteLen, hc, ih]
    omega

lemma byteLen_eq_zero : ∀ {l : Str}, byteLen l = 0 → l = []
  | [], _ => rfl
  | c :: cs, h => by
    have := utf8Size_pos c
    simp [byteLen] at h
    omega

lemma byteLen_ne_zero {l : Str} (h : l ≠ []) : byteLen l ≠ 0 :=
  fun hc => h (byteLen_eq_zero hc)

lemma byteRemaining_ascii : ∀ {l : Str} {n : Nat}, (∀ c ∈ l, utf8Size c = 1) →
    n ≤ l.length → byteRemaining l n = some (l.drop n)
  | l, 0, _, _ => by simp [byteRemaining]
  | [], n + 1, _, h => by simp at h
  | c :: cs, n + 1, hA, h => by
    have hc : utf8Size c = 1 := hA c (by simp)
    have ih := byteRemaining_ascii (l := cs) (n := n)
      (fun x hx => hA x (by simp [hx])) (by simp at h; omega)
    simp [byteRemaining, hc, ih]

/-! ### Basic list helpers -/

lemma takeWhile_of_all {p : Char → Bool} : ∀ {l : Str}, (∀ c ∈ l, p c = true) →
    l.takeWhile p = l
  | [], _ => rfl
  | c :: cs, h => by
    have hc : p c = true := h c (by simp)
    simp only [List.takeWhile_cons, hc, if_true]
    exact congrArg (c :: ·) (takeWhile_of_all (fun x hx => h x (by simp [hx])))

lemma takeWhile_word {w rest : Str} (hw : IsWord w) (hr : HeadWS rest) :
    (w ++ rest).takeWhile (fun c => !(isWS c)) = w := by
  have hpos : ∀ c ∈ w, (!(isWS c)) = true := by
    intro c hc
    simp [hw.2 c hc]
  rw [List.takeWhile_append_of_pos hpos]
  rcases hr with h | ⟨c, r', hr', hc⟩
  · simp [h]
  · subst hr'
    simp [List.takeWhile_cons, hc]

lemma splitLine_append : ∀ s : Str, (splitLine s).1 ++ (splitLine s).2 = s
  | [] => rfl
  | c :: cs => by
    by_cases h : c = '\n'
    · simp [splitLine, h]
    · simp only [splitLine, h, if_false]
      exact congrArg (c :: ·) (splitLine_append cs)

lemma splitLine_fst_nil : ∀ {s : Str}, (splitLine s).1 = [] → s = []
  | [], _ => rfl
  | c :: cs, h => by
    by_cases hc : c = '\n' <;> simp [splitLine, hc] at h

lemma splitLine_no_newline : ∀ {s : Str}, '\n' ∉ s → splitLine s = (s, [])
  | [], _ => rfl
  | c :: cs, h => by
    have hc : ¬(c = '\n') := by
      intro he; exact h (by simp [he])
    have ih := splitLine_no_newline (s := cs) (fun hm => h (by simp [hm]))
    simp [splitLine, hc, ih]

lemma linesOf_eq : ∀ {s : Str}, s ≠ [] →
    linesOf s = (splitLine s).1 :: linesOf (splitLine s).2
  | [], h => absurd rfl h
  | c :: cs, _ => by
    by_cases hc : c = '\n'
    · simp [linesOf, splitLine, hc]
    · have h1 : linesOf (c :: cs) = match linesOf cs with
        | [] => [[c]]
        | l :: ls => (c :: l) :: ls := by
        simp [linesOf, hc]
      have h2 : splitLine (c :: cs) = (c :: (splitLine cs).1, (splitLine cs).2) := by
        simp [splitLine, hc]
      rw [h1, h2]
      cases hcs : cs with
      | nil => simp [linesOf, splitLine]
      | cons d ds =>
        rw [linesOf_eq (s := d :: ds) (by simp)]

lemma splitLine_non_nl_rest : ∀ (s : Str),
    (∀ x ∈ (splitLine s).1, x ≠ '\n') → (splitLine s).2 = []
  | [], _ => rfl
  | a :: as, h => by
    by_cases ha : a = '\n'
    · exfalso
      apply h '\n' _ rfl
      subst ha
      simp [splitLine]
    · have hs : splitLine (a :: as) = (a :: (splitLine as).1, (splitLine as).2) := by
        simp [splitLine, ha]
      rw [hs]
      exact splitLine_non_nl_rest as (fun x hx => h x (by rw [hs]; simp [hx]))

lemma splitLine_singleton {s : Str} {c : Char} {rest : Str}
    (h : splitLine s = ([c], rest)) (hc : c ≠ '\n') : rest = [] := by
  have h2 := splitLine_non_nl_rest s (by
    intro x hx
    rw [h] at hx
    simp at hx
    rw [hx]
    exact hc)
  rw [h] at h2
  exact h2

/-! ### Tokenizer stepping lemmas -/

lemma tokens_next_some {tk : Tokens} (sp w rest : Str)
    (hA : ∀ c ∈ tk.buf, utf8Size c = 1)
    (hWF : tk.cur ≤ tk.buf.length)
    (hrem : tk.buf.drop tk.cur = sp ++ (w ++ rest))
    (hsp : ∀ c ∈ sp, isWS c = true)
    (hw : IsWord w) (hr : HeadWS rest) :
    Tokens.next tk = some (some w, ⟨tk.buf, tk.cur + sp.length + w.length⟩) ∧
    tk.buf.drop (tk.cur + sp.length + w.length) = rest ∧
    tk.cur + sp.length + w.length ≤ tk.buf.length := by
  have hBL : byteLen tk.buf = tk.buf.length := byteLen_ascii hA
  have hR0 : Tokens.remaining tk = some (tk.buf.drop tk.cur) :=
    byteRemaining_ascii hA hWF
  have hlen : (tk.buf.drop tk.cur).length = tk.buf.length - tk.cur := by simp
  have hsum : sp.length + (w.length + rest.length) = tk.buf.length - tk.cur := by
    rw [← hlen, hrem]; simp
  have hwlen : 1 ≤ w.length := by
    cases hww : w with
    | nil => exact absurd hww hw.1
    | cons _ _ => simp
  have htw : (tk.buf.drop tk.cur).takeWhile isWS = sp := by
    rw [hrem, List.takeWhile_append_of_pos hsp]
    cases hww : w with
    | nil => exact absurd hww hw.1
    | cons c cs =>
      have hc : isWS c = false := hw.2 c (by simp [hww])
      simp [List.takeWhile_cons, hc]
  have hcond : tk.cur + sp.length < tk.buf.length := by omega
  have hdrop1 : tk.buf.drop (tk.cur + sp.length) = w ++ rest := by
    rw [← List.drop_drop, hrem]
    exact @List.drop_left' Char sp (w ++ rest) sp.length rfl
  have hR1 : byteRemaining tk.buf (tk.cur + sp.length) =
      some (tk.buf.drop (tk.cur + sp.length)) :=
    byteRemaining_ascii hA (by omega)
  have hrem2 : tk.buf.drop (tk.cur + sp.length + w.length) = rest := by
    rw [Nat.add_assoc, ← List.drop_drop, ← List.drop_drop, hrem]
    rw [@List.drop_left' Char sp (w ++ rest) sp.length rfl]
    exact @List.drop_left' Char w rest w.length rfl
  have hTW : (w ++ rest).takeWhile (fun c => !(isWS c)) = w := takeWhile_word hw hr
  refine ⟨?_, hrem2, by omega⟩
  simp only [Tokens.next, hR0, htw, hBL, hR1, hdrop1, hTW]
  rw [if_pos hcond]

lemma tokens_next_none {tk : Tokens}
    (hA : ∀ c ∈ tk.buf, utf8Size c = 1)
    (hWF : tk.cur ≤ tk.buf.length)
    (hall : ∀ c ∈ tk.buf.drop tk.cur, isWS c = true) :
    Tokens.next tk = some (none, ⟨tk.buf, tk.buf.length⟩) := by
  have hBL : byteLen tk.buf = tk.buf.length := byteLen_ascii hA
  have hR0 : Tokens.remaining tk = some (tk.buf.drop tk.cur) :=
    byteRemaining_ascii hA hWF
  have hlen : (tk.buf.drop tk.cur).length = tk.buf.length - tk.cur := by simp
  have htw : (tk.buf.drop tk.cur).takeWhile isWS = tk.buf.drop tk.cur :=
    takeWhile_of_all hall
  have hcur : tk.cur + (tk.buf.drop tk.cur).length = tk.buf.length := by omega
  simp only [Tokens.next, hR0, htw, hcur, hBL]
  rw [if_neg (by omega)]

/-! ### Lexer stepping lemmas for single-line states -/

lemma next_wordF_empty_buf (f : Nat) (tk : Tokens) (n : Nat) :
    Lexer.next_wordF (f + 1) ⟨[], tk, n⟩ = Lexer.next_word ⟨[], tk, n⟩ := by
  show _ = Lexer.next_wordF (List.length ([] : Str) + 1) _
  simp only [List.length_nil]
  cases h : Tokens.next tk with
  | none => simp [Lexer.next_wordF, h]
  | some p =>
    obtain ⟨o, t'⟩ := p
    cases o <;>
      simp [Lexer.next_wordF, h, Lexer.refill, Lexer.read_line, splitLine, byteLen]

lemma next_word_flat (tk : Tokens) (n : Nat) (sp w rest : Str)
    (hA : ∀ c ∈ tk.buf, utf8Size c = 1)
    (hWF : tk.cur ≤ tk.buf.length)
    (hrem : tk.buf.drop tk.cur = sp ++ (w ++ rest))
    (hsp : ∀ c ∈ sp, isWS c = true)
    (hw : IsWord w) (hr : HeadWS rest) :
    ∃ tk' : Tokens, Lexer.next_word ⟨[], tk, n⟩ = some (some w, ⟨[], tk', n⟩) ∧
      tk'.buf = tk.buf ∧ tk'.buf.drop tk'.cur = rest ∧ tk'.cur ≤ tk'.buf.length := by
  obtain ⟨h1, h2, h3⟩ := tokens_next_some sp w rest hA hWF hrem hsp hw hr
  refine ⟨⟨tk.buf, tk.cur + sp.length + w.length⟩, ?_, rfl, h2, h3⟩
  simp [Lexer.next_word, Lexer.next_wordF, h1]

lemma next_word_flat_none {tk : Tokens} (n : Nat)
    (hA : ∀ c ∈ tk.buf, utf8Size c = 1)
    (hWF : tk.cur ≤ tk.buf.length)
    (hall : ∀ c ∈ tk.buf.drop tk.cur, isWS c = true) :
    Lexer.next_word ⟨[], tk, n⟩ = some (none, ⟨[], Tokens.empty, n⟩) := by
  have h1 := tokens_next_none hA hWF hall
  simp [Lexer.next_word, Lexer.next_wordF, h1, Lexer.refill, Lexer.read_line,
    splitLine, byteLen, Tokens.new, Tokens.empty]

lemma next_word_init {input : Str} (h0 : input ≠ []) (hnl : '\n' ∉ input) :
    Lexer.next_word (Lexer.new input) = Lexer.next_word ⟨[], Tokens.new input, 1⟩ := by
  have hsplit : splitLine input = (input, []) := splitLine_no_newline hnl
  have hlen : byteLen input ≠ 0 := byteLen_ne_zero h0
  have hT : Tokens.next Tokens.empty = some (none, ⟨[], 0⟩) := rfl
  show Lexer.next_wordF (input.length + 1) ⟨input, Tokens.empty, 0⟩ = _
  simp only [Lexer.next_wordF, hT]
  simp only [Lexer.refill, Lexer.read_line, hsplit, hlen, if_false, List.nil_append]
  obtain ⟨k, hk⟩ : ∃ k, input.length = k + 1 := by
    cases input with
    | nil => exact absurd rfl h0
    | cons _ cs => exact ⟨cs.length, rfl⟩
  rw [hk]
  exact next_wordF_empty_buf k (Tokens.new input) 1

/-! ### Entry dispatch lemmas -/

lemma entry_machine {netrc : Netrc} {lx : Lexer} {cm : MachineRef} {w : Str} {lxw : Lexer}
    (he : Lexer.next_word lx = some (some w, lxw)) :
    Netrc.parse_entry netrc lx ("machine".toList) cm =
      some (Except.ok (MachineRef.Host netrc.hosts.length),
        { netrc with hosts := netrc.hosts ++ [⟨w, Machine.init⟩] }, lxw) := by
  simp only [Netrc.parse_entry, show entryOf ("machine".toList) = Entry.machineK from rfl,
    Lexer.next_word_or_err, he]
  simp

lemma entry_default {netrc : Netrc} {lx : Lexer} {cm : MachineRef} :
    Netrc.parse_entry netrc lx ("default".toList) cm =
      some (Except.ok MachineRef.Default, { netrc with default := some Machine.init }, lx) :=
  rfl

lemma entry_login {netrc : Netrc} {lx : Lexer} {cm : MachineRef} {m : Machine}
    {w : Str} {lxw : Lexer}
    (hf : Netrc.find_machine netrc cm = some m)
    (he : Lexer.next_word lx = some (some w, lxw)) :
    Netrc.parse_entry netrc lx ("login".toList) cm =
      some (Except.ok cm, Netrc.set_machine netrc cm { m with login := w }, lxw) := by
  simp only [Netrc.parse_entry, show entryOf ("login".toList) = Entry.loginK from rfl,
    Netrc.with_current_machine, hf, Lexer.next_word_or_err, he]

lemma entry_password {netrc : Netrc} {lx : Lexer} {cm : MachineRef} {m : Machine}
    {w : Str} {lxw : Lexer}
    (hf : Netrc.find_machine netrc cm = some m)
    (he : Lexer.next_word lx = some (some w, lxw)) :
    Netrc.parse_entry netrc lx ("password".toList) cm =
      some (Except.ok cm, Netrc.set_machine netrc cm { m with password := some w }, lxw) := by
  simp only [Netrc.parse_entry, show entryOf ("password".toList) = Entry.passwordK from rfl,
    Netrc.with_current_machine, hf, Lexer.next_word_or_err, he]

lemma entry_account {netrc : Netrc} {lx : Lexer} {cm : MachineRef} {m : Machine}
    {w : Str} {lxw : Lexer}
    (hf : Netrc.find_machine netrc cm = some m)
    (he : Lexer.next_word lx = some (some w, lxw)) :
    Netrc.parse_entry netrc lx ("account".toList) cm =
      some (Except.ok cm, Netrc.set_machine netrc cm { m with account := some w }, lxw) := by
  simp only [Netrc.parse_entry, show entryOf ("account".toList) = Entry.accountK from rfl,
    Netrc.with_current_machine, hf, Lexer.next_word_or_err, he]

lemma entry_port_ok {netrc : Netrc} {lx : Lexer} {cm : MachineRef} {m : Machine}
    {w : Str} {lxw : Lexer} {p : Nat}
    (hf : Netrc.find_machine netrc cm = some m)
    (he : Lexer.next_word lx = some (some w, lxw))
    (hp : parseU16 w = some p) :
    Netrc.parse_entry netrc lx ("port".toList) cm =
      some (Except.ok cm, Netrc.set_machine netrc cm { m with port := some p }, lxw) := by
  simp only [Netrc.parse_entry, show entryOf ("port".toList) = Entry.portK from rfl,
    Netrc.with_current_machine, hf, Lexer.next_word_or_err, he, hp]

lemma entry_port_bad {netrc : Netrc} {lx : Lexer} {cm : MachineRef} {m : Machine}
    {w : Str} {lxw : Lexer}
    (hf : Netrc.find_machine netrc cm = some m)
    (he : Lexer.next_word lx = some (some w, lxw))
    (hp : parseU16 w = none) :
    Netrc.parse_entry netrc lx ("port".toList) cm =
      some (Except.error ⟨"Unable to parse port number `" ++ String.mk w ++ "'", lxw.lnum⟩,
        netrc, lxw) := by
  simp only [Netrc.parse_entry, show entryOf ("port".toList) = Entry.portK from rfl,
    Netrc.with_current_machine, hf, Lexer.next_word_or_err, he, hp]

lemma entry_macdef {netrc : Netrc} {lx : Lexer} {cm : MachineRef} {w : Str} {lxw : Lexer}
    {r : Str × Lexer}
    (he : Lexer.next_word lx = some (some w, lxw))
    (hsub : Lexer.next_subcommands lxw = some r) :
    Netrc.parse_entry netrc lx ("macdef".toList) cm =
      some (Except.ok MachineRef.Nothing,
        { netrc with macros := netrc.macros ++ [⟨w, r.1⟩] }, r.2) := by
  simp only [Netrc.parse_entry, show entryOf ("macdef".toList) = Entry.macdefK from rfl,
    Lexer.next_word_or_err, he, hsub]

/-- One unfolding of the fueled parse loop. -/
lemma parseLoopF_step (fuel : Nat) (netrc : Netrc) (lx : Lexer) (cm : MachineRef) :
    Netrc.parseLoopF (fuel + 1) netrc lx cm =
      match Lexer.next_word lx with
      | none => none
      | some (none, _) => some (Except.ok netrc)
      | some (some w, lx') =>
        match Netrc.parse_entry netrc lx' w cm with
        | none => none
        | some (Except.error e, _, _) => some (Except.error e)
        | some (Except.ok cm', netrc', lx'') => Netrc.parseLoopF fuel netrc' lx'' cm' := rfl

lemma word_no_newline {w : Str} (hw : IsWord w) : '\n' ∉ w := by
  intro hm
  have h1 := hw.2 '\n' hm
  have h2 : isWS '\n' = true := by decide
  rw [h2] at h1
  exact absurd h1 (by decide)

lemma headWS_space (r : Str) : HeadWS (' ' :: r) := Or.inr ⟨' ', r, rfl, by decide⟩

lemma parseLoopF_word_ok (fuel : Nat) {netrc : Netrc} {lx : Lexer} {cm : MachineRef}
    {w : Str} {lx' : Lexer} {cm' : MachineRef} {netrc' : Netrc} {lx'' : Lexer}
    (he : Lexer.next_word lx = some (some w, lx'))
    (hp : Netrc.parse_entry netrc lx' w cm = some (Except.ok cm', netrc', lx'')) :
    Netrc.parseLoopF (fuel + 1) netrc lx cm = Netrc.parseLoopF fuel netrc' lx'' cm' := by
  rw [parseLoopF_step, he]
  simp only [hp]

lemma parseLoopF_word_err (fuel : Nat) {netrc : Netrc} {lx : Lexer} {cm : MachineRef}
    {w : Str} {lx' : Lexer} {e : ParseError} {netrc' : Netrc} {lx'' : Lexer}
    (he : Lexer.next_word lx = some (some w, lx'))
    (hp : Netrc.parse_entry netrc lx' w cm = some (Except.error e, netrc', lx'')) :
    Netrc.parseLoopF (fuel + 1) netrc lx cm = some (Except.error e) := by
  rw [parseLoopF_step, he]
  simp only [hp]

lemma parseLoopF_done (fuel : Nat) {netrc : Netrc} {lx : Lexer} {cm : MachineRef}
    {lx' : Lexer} (he : Lexer.next_word lx = some (none, lx')) :
    Netrc.parseLoopF (fuel + 1) netrc lx cm = some (Except.ok netrc) := by
  rw [parseLoopF_step, he]

/-! ### Macro body capture -/

lemma subAuxF_capture : ∀ (fuel : Nat) {buf : Str} (tk : Tokens) (lnum : Nat) (cmds : Str),
    buf.length < fuel →
    (Lexer.next_subcommandsAuxF fuel ⟨buf, tk, lnum⟩ cmds).1 = cmds ++ specCapture buf := by
  intro fuel
  induction fuel with
  | zero => intro buf tk lnum cmds h; omega
  | succ f ih =>
    intro buf tk lnum cmds hf
    rcases hsl : splitLine buf with ⟨l, rest⟩
    have happ : l ++ rest = buf := by rw [← splitLine_append buf, hsl]
    by_cases hbuf : buf = []
    · subst hbuf
      simp [Lexer.next_subcommandsAuxF, Lexer.read_line, splitLine, specCapture,
        linesOf, takeThroughBlank, byteLen]
    · have hlines : linesOf buf = l :: linesOf rest := by rw [linesOf_eq hbuf, hsl]
      have hlne : l ≠ [] := by
        intro hc
        exact hbuf (splitLine_fst_nil (by rw [hsl]; exact hc))
      simp only [Lexer.next_subcommandsAuxF, Lexer.read_line, hsl]
      by_cases hlen1 : byteLen l ≤ 1
      · rw [if_pos hlen1]
        obtain ⟨c, hc⟩ : ∃ c, l = [c] := by
          cases l with
          | nil => exact absurd rfl hlne
          | cons a as =>
            have ha := utf8Size_pos a
            have has : as = [] := byteLen_eq_zero (by simp [byteLen] at hlen1 ⊢; omega)
            exact ⟨a, by rw [has]⟩
        subst hc
        by_cases hcnl : c = '\n'
        · subst hcnl
          simp [specCapture, hlines, takeThroughBlank, isBlankLine]
        · have hrest : rest = [] := splitLine_singleton hsl hcnl
          subst hrest
          have hblank : isBlankLine [c] = false := by simp [isBlankLine, hcnl]
          simp [specCapture, hlines, takeThroughBlank, hblank, linesOf]
      · rw [if_neg hlen1]
        have hrlen : rest.length < f := by
          have hle := congrArg List.length happ
          have hl1 : 1 ≤ l.length := by
            cases l with
            | nil => exact absurd rfl hlne
            | cons _ _ => simp
          simp at hle
          omega
        have hblank : isBlankLine l = false := by
          simp only [isBlankLine, decide_eq_false_iff_not]
          rintro (hc | hc)
          · exact hlne hc
          · rw [hc] at hlen1
            exact hlen1 (by decide)
        rw [ih tk _ (cmds ++ l) hrlen]
        simp [specCapture, hlines, takeThroughBlank, hblank, List.append_assoc]

lemma subcommands_capture (lx : Lexer) {rem : Str}
    (hrem : Tokens.remaining lx.line = some rem) :
    ∃ lxr : Lexer,
      Lexer.next_subcommands lx = some (rem ++ specCapture lx.buf, lxr) := by
  have h1 := @subAuxF_capture (lx.buf.length + 1) lx.buf Tokens.empty lx.lnum rem (by omega)
  refine ⟨(Lexer.next_subcommandsAuxF (lx.buf.length + 1)
    ⟨lx.buf, Tokens.empty, lx.lnum⟩ rem).2, ?_⟩
  simp only [Lexer.next_subcommands, hrem]
  exact congrArg some (Prod.ext h1 rfl)

/-! ### Line counting -/

lemma next_wordF_lnum : ∀ (fuel : Nat) (lx : Lexer) {o : Option Str} {lx' : Lexer},
    lx.buf.length < fuel →
    Lexer.next_wordF fuel lx = some (o, lx') →
    (linesOf lx'.buf).length ≤ (linesOf lx.buf).length ∧
    lx'.lnum = lx.lnum + ((linesOf lx.buf).length - (linesOf lx'.buf).length) := by
  intro fuel
  induction fuel with
  | zero => intro lx o lx' h _; omega
  | succ f ih =>
    intro lx o lx' hf he
    cases hT : Tokens.next lx.line with
    | none =>
      simp only [Lexer.next_wordF, hT] at he
      exact Option.noConfusion he
    | some p =>
      obtain ⟨ow, t'⟩ := p
      cases ow with
      | some w =>
        simp only [Lexer.next_wordF, hT, Option.some.injEq, Prod.mk.injEq] at he
        obtain ⟨-, helx⟩ := he
        subst helx
        exact ⟨Nat.le_refl _, by simp⟩
      | none =>
        rcases hsl : splitLine lx.buf with ⟨l, rest⟩
        have happ : l ++ rest = lx.buf := by rw [← splitLine_append lx.buf, hsl]
        by_cases hbuf : lx.buf = []
        · have hsl' : splitLine lx.buf = ([], []) := by rw [hbuf]; rfl
          simp only [Lexer.next_wordF, hT, Lexer.refill, Lexer.read_line, hsl',
            List.append_nil, byteLen, if_pos, Option.some.injEq, Prod.mk.injEq] at he
          obtain ⟨-, helx⟩ := he
          subst helx
          simp [hbuf]
        · have hlne : l ≠ [] := by
            intro hc
            exact hbuf (splitLine_fst_nil (by rw [hsl, hc]))
          have hbl : byteLen l ≠ 0 := byteLen_ne_zero hlne
          have hlines : linesOf lx.buf = l :: linesOf rest := by rw [linesOf_eq hbuf, hsl]
          have hrlen : rest.length < f := by
            have hle := congrArg List.length happ
            have hl1 : 1 ≤ l.length := by
              cases l with
              | nil => exact absurd rfl hlne
              | cons _ _ => simp
            simp at hle
            omega
          simp only [Lexer.next_wordF, hT, Lexer.refill, Lexer.read_line, hsl, hbl,
            if_false, List.nil_append] at he
          have hIH := ih ⟨rest, Tokens.new l, lx.lnum + 1⟩ hrlen he
          simp only at hIH
          rw [hlines]
          constructor
          · calc (linesOf lx'.buf).length
                ≤ (linesOf rest).length := hIH.1
            _ ≤ (l :: linesOf rest).length := by simp
          · rw [hIH.2]
            have := hIH.1
            simp only [List.length_cons]
            omega

/-! ### Whitespace-only inputs -/

lemma next_wordF_all_ws : ∀ (fuel : Nat) (lx : Lexer), lx.buf.length < fuel →
    lx.line.cur ≤ lx.line.buf.length →
    (∀ c ∈ lx.line.buf, utf8Size c = 1) →
    (∀ c ∈ lx.buf, isWS c = true ∧ utf8Size c = 1) →
    (∀ c ∈ lx.line.buf.drop lx.line.cur, isWS c = true) →
    ∃ lx' : Lexer, Lexer.next_wordF fuel lx = some (none, lx') := by
  intro fuel
  induction fuel with
  | zero => intro lx h; omega
  | succ f ih =>
    intro lx hf hWF hlineA hbufws hlinews
    have hT : Tokens.next lx.line = some (none, ⟨lx.line.buf, lx.line.buf.length⟩) :=
      tokens_next_none hlineA hWF hlinews
    rcases hsl : splitLine lx.buf with ⟨l, rest⟩
    have happ : l ++ rest = lx.buf := by rw [← splitLine_append lx.buf, hsl]
    by_cases hbuf : lx.buf = []
    · have hsl' : splitLine lx.buf = ([], []) := by rw [hbuf]; rfl
      exact ⟨⟨[], Tokens.new [], lx.lnum⟩, by
        simp [Lexer.next_wordF, hT, Lexer.refill, Lexer.read_line, hsl', byteLen]⟩
    · have hlne : l ≠ [] := by
        intro hc
        exact hbuf (splitLine_fst_nil (by rw [hsl, hc]))
      have hbl : byteLen l ≠ 0 := byteLen_ne_zero hlne
      have hrlen : rest.length < f := by
        have hle := congrArg List.length happ
        have hl1 : 1 ≤ l.length := by
          cases l with
          | nil => exact absurd rfl hlne
          | cons _ _ => simp
        simp at hle
        omega
      have hlws : ∀ c ∈ l, isWS c = true ∧ utf8Size c = 1 := fun c hc =>
        hbufws c (by rw [← happ]; simp [hc])
      have hrws : ∀ c ∈ rest, isWS c = true ∧ utf8Size c = 1 := fun c hc =>
        hbufws c (by rw [← happ]; simp [hc])
      obtain ⟨lx', hrec⟩ := ih ⟨rest, Tokens.new l, lx.lnum + 1⟩ hrlen
        (by simp [Tokens.new]) (fun c hc => (hlws c hc).2) hrws
        (fun c hc => (hlws c (by simpa [Tokens.new] using hc)).1)
      refine ⟨lx', ?_⟩
      simp only [Lexer.next_wordF, hT, Lexer.refill, Lexer.read_line, hsl, hbl,
        if_false, List.nil_append]
      exact hrec

/-! ### Host index invariant -/

lemma setMachineAt_length : ∀ (hs : List Host) (n : Nat) (m : Machine),
    (setMachineAt hs n m).length = hs.length
  | [], _, _ => rfl
  | _ :: hs, 0, m => by simp [setMachineAt]
  | h :: hs, n + 1, m => by simp [setMachineAt, setMachineAt_length hs n m]

lemma set_machine_hosts_length (netrc : Netrc) (r : MachineRef) (m : Machine) :
    (Netrc.set_machine netrc r m).hosts.length = netrc.hosts.length := by
  cases r <;> simp [Netrc.set_machine, setMachineAt_length]

lemma find_machine_host_isSome {netrc : Netrc} {i : Nat} (h : i < netrc.hosts.length) :
    (Netrc.find_machine netrc (MachineRef.Host i)).isSome := by
  simp [Netrc.find_machine, List.getElem?_eq_getElem h]

lemma reachable_host_index : ∀ (netrc : Netrc) (cm : MachineRef), Reachable netrc cm →
    ∀ i : Nat, cm = MachineRef.Host i → i + 1 = netrc.hosts.length := by
  intro netrc cm hr
  induction hr with
  | init => intro i hi; exact MachineRef.noConfusion hi
  | step netrc₀ cm₀ lx w cm' netrc' lx' hr hpe ih =>
    intro i hi
    cases hE : entryOf w with
    | machineK =>
      rcases hne : Lexer.next_word_or_err lx with _ | ⟨res, lxw⟩
      · simp only [Netrc.parse_entry, hE, hne] at hpe
        exact Option.noConfusion hpe
      · cases res with
        | ok name =>
          simp only [Netrc.parse_entry, hE, hne, Option.some.injEq, Prod.mk.injEq,
            Except.ok.injEq] at hpe
          obtain ⟨h1, h2, -⟩ := hpe
          subst h1
          subst h2
          injection hi with hix
          subst hix
          simp only [List.length_append, List.length_cons, List.length_nil]
          omega
        | error e =>
          simp only [Netrc.parse_entry, hE, hne] at hpe
          simp at hpe
    | defaultK =>
      simp only [Netrc.parse_entry, hE, Option.some.injEq, Prod.mk.injEq,
        Except.ok.injEq] at hpe
      obtain ⟨h1, -, -⟩ := hpe
      subst h1
      exact MachineRef.noConfusion hi
    | loginK =>
      rcases hfm : Netrc.find_machine netrc₀ cm₀ with _ | m
      · simp only [Netrc.parse_entry, hE, Netrc.with_current_machine, hfm] at hpe
        simp at hpe
      · rcases hne : Lexer.next_word_or_err lx with _ | ⟨res, lxw⟩
        · simp only [Netrc.parse_entry, hE, Netrc.with_current_machine, hfm, hne] at hpe
          exact Option.noConfusion hpe
        · cases res with
          | ok v =>
            simp only [Netrc.parse_entry, hE, Netrc.with_current_machine, hfm, hne,
              Option.some.injEq, Prod.mk.injEq, Except.ok.injEq] at hpe
            obtain ⟨h1, h2, -⟩ := hpe
            subst h1
            subst h2
            rw [set_machine_hosts_length]
            exact ih i hi
          | error e =>
            simp only [Netrc.parse_entry, hE, Netrc.with_current_machine, hfm, hne] at hpe
            simp at hpe
    | passwordK =>
      rcases hfm : Netrc.find_machine netrc₀ cm₀ with _ | m
      · simp only [Netrc.parse_entry, hE, Netrc.with_current_machine, hfm] at hpe
        simp at hpe
      · rcases hne : Lexer.next_word_or_err lx with _ | ⟨res, lxw⟩
        · simp only [Netrc.parse_entry, hE, Netrc.with_current_machine, hfm, hne] at hpe
          exact Option.noConfusion hpe
        · cases res with
          | ok v =>
            simp only [Netrc.parse_entry, hE, Netrc.with_current_machine, hfm, hne,
              Option.some.injEq, Prod.mk.injEq, Except.ok.injEq] at hpe
            obtain ⟨h1, h2, -⟩ := hpe
            subst h1
            subst h2
            rw [set_machine_hosts_length]
            exact ih i hi
          | error e =>
            simp only [Netrc.parse_entry, hE, Netrc.with_current_machine, hfm, hne] at hpe
            simp at hpe
    | accountK =>
      rcases hfm : Netrc.find_machine netrc₀ cm₀ with _ | m
      · simp only [Netrc.parse_entry, hE, Netrc.with_current_machine, hfm] at hpe
        simp at hpe
      · rcases hne : Lexer.next_word_or_err lx with _ | ⟨res, lxw⟩
        · simp only [Netrc.parse_entry, hE, Netrc.with_current_machine, hfm, hne] at hpe
          exact Option.noConfusion hpe
        · cases res with
          | ok v =>
            simp only [Netrc.parse_entry, hE, Netrc.with_current_machine, hfm, hne,
              Option.some.injEq, Prod.mk.injEq, Except.ok.injEq] at hpe
            obtain ⟨h1, h2, -⟩ := hpe
            subst h1
            subst h2
            rw [set_machine_hosts_length]
            exact ih i hi
          | error e =>
            simp only [Netrc.parse_entry, hE, Netrc.with_current_machine, hfm, hne] at hpe
            simp at hpe
    | portK =>
      rcases hfm : Netrc.find_machine netrc₀ cm₀ with _ | m
      · simp only [Netrc.parse_entry, hE, Netrc.with_current_machine, hfm] at hpe
        simp at hpe
      · rcases hne : Lexer.next_word_or_err lx with _ | ⟨res, lxw⟩
        · simp only [Netrc.parse_entry, hE, Netrc.with_current_machine, hfm, hne] at hpe
          exact Option.noConfusion hpe
        · cases res with
          | ok v =>
            rcases hpu : parseU16 v with _ | pnum
            · simp only [Netrc.parse_entry, hE, Netrc.with_current_machine, hfm, hne,
                hpu] at hpe
              simp at hpe
            · simp only [Netrc.parse_entry, hE, Netrc.with_current_machine, hfm, hne,
                hpu, Option.some.injEq, Prod.mk.injEq, Except.ok.injEq] at hpe
              obtain ⟨h1, h2, -⟩ := hpe
              subst h1
              subst h2
              rw [set_machine_hosts_length]
              exact ih i hi
          | error e =>
            simp only [Netrc.parse_entry, hE, Netrc.with_current_machine, hfm, hne] at hpe
            simp at hpe
    | macdefK =>
      rcases hne : Lexer.next_word_or_err lx with _ | ⟨res, lxw⟩
      · simp only [Netrc.parse_entry, hE, hne] at hpe
        exact Option.noConfusion hpe
      · cases res with
        | ok name =>
          cases hsub : Lexer.next_subcommands lxw with
          | none =>
            simp only [Netrc.parse_entry, hE, hne, hsub] at hpe
            exact Option.noConfusion hpe
          | some r =>
            simp only [Netrc.parse_entry, hE, hne, hsub, Option.some.injEq,
              Prod.mk.injEq, Except.ok.injEq] at hpe
            obtain ⟨h1, -, -⟩ := hpe
            subst h1
            exact MachineRef.noConfusion hi
        | error e =>
          simp only [Netrc.parse_entry, hE, hne] at hpe
          simp at hpe
    | unknownK =>
      simp only [Netrc.parse_entry, hE] at hpe
      simp at hpe

/-! ## Claims -/

/-- C1 (corrected): for every input consisting exactly of `machine <h>`
followed by `login <l>`, `password <p>`, `port <n>` — the four words free of
whitespace and made of single-byte characters, the range on which the
source's byte-indexed cursor is reliable — `Netrc.parse` succeeds and the
result has exactly one host, named `<h>`, whose machine has login `<l>`,
password `<p>` (the claim's "password `<l>`" is refuted by
`C1_counterexample`, whose second part also shows a multi-byte word escaping
the claim's conclusion), and port `<n>`, with no default and no macros. -/
theorem C1_thm (h l p pn : Str) (n : Nat)
    (hh : IsWord h) (hl : IsWord l) (hp : IsWord p) (hpn : IsWord pn)
    (hAh : Ascii h) (hAl : Ascii l) (hAp : Ascii p) (hApn : Ascii pn)
    (hn : parseU16 pn = some n) :
    Netrc.parse ("machine ".toList ++ (h ++ (" login ".toList ++ (l ++
        (" password ".toList ++ (p ++ (" port ".toList ++ pn))))))) =
      some (Except.ok ⟨[⟨h, ⟨l, some p, none, some n⟩⟩], none, []⟩) := by
  set input : Str := "machine ".toList ++ (h ++ (" login ".toList ++ (l ++
      (" password ".toList ++ (p ++ (" port ".toList ++ pn)))))) with hin
  have hge : 5 ≤ input.length := by
    rw [hin]; simp [List.length_append]
  have h0 : input ≠ [] := by
    intro hc
    rw [hc] at hge; simp at hge
  have hnl : '\n' ∉ input := by
    rw [hin]
    intro hm
    simp only [List.mem_append] at hm
    rcases hm with hm | hm | hm | hm | hm | hm | hm | hm
    · exact absurd hm (by decide)
    · exact word_no_newline hh hm
    · exact absurd hm (by decide)
    · exact word_no_newline hl hm
    · exact absurd hm (by decide)
    · exact word_no_newline hp hm
    · exact absurd hm (by decide)
    · exact word_no_newline hpn hm
  have hAin : ∀ c ∈ input, utf8Size c = 1 := by
    rw [hin]
    intro c hm
    simp only [List.mem_append] at hm
    rcases hm with hm | hm | hm | hm | hm | hm | hm | hm
    · exact (by decide : Ascii ("machine ".toList)) c hm
    · exact hAh c hm
    · exact (by decide : Ascii (" login ".toList)) c hm
    · exact hAl c hm
    · exact (by decide : Ascii (" password ".toList)) c hm
    · exact hAp c hm
    · exact (by decide : Ascii (" port ".toList)) c hm
    · exact hApn c hm
  obtain ⟨t1, e1, b1, r1, wf1⟩ := next_word_flat (Tokens.new input) 1
    ([]) ("machine".toList)
    ([' '] ++ (h ++ (" login ".toList ++ (l ++
      (" password ".toList ++ (p ++ (" port ".toList ++ pn)))))))
    hAin (by simp [Tokens.new]) (by rw [hin]; rfl) (by simp) (by decide) (headWS_space _)
  have hA1 : ∀ c ∈ t1.buf, utf8Size c = 1 := by rw [b1]; exact hAin
  obtain ⟨t2, e2, b2, r2, wf2⟩ := next_word_flat t1 1 [' '] (h)
    (" login ".toList ++ (l ++ (" password ".toList ++ (p ++ (" port ".toList ++ pn)))))
    hA1 wf1 r1 (by decide) hh (headWS_space _)
  have hA2 : ∀ c ∈ t2.buf, utf8Size c = 1 := by rw [b2]; exact hA1
  obtain ⟨t3, e3, b3, r3, wf3⟩ := next_word_flat t2 1 [' '] ("login".toList)
    ([' '] ++ (l ++ (" password ".toList ++ (p ++ (" port ".toList ++ pn)))))
    hA2 wf2 r2 (by decide) (by decide) (headWS_space _)
  have hA3 : ∀ c ∈ t3.buf, utf8Size c = 1 := by rw [b3]; exact hA2
  obtain ⟨t4, e4, b4, r4, wf4⟩ := next_word_flat t3 1 [' '] (l)
    (" password ".toList ++ (p ++ (" port ".toList ++ pn)))
    hA3 wf3 r3 (by decide) hl (headWS_space _)
  have hA4 : ∀ c ∈ t4.buf, utf8Size c = 1 := by rw [b4]; exact hA3
  obtain ⟨t5, e5, b5, r5, wf5⟩ := next_word_flat t4 1 [' '] ("password".toList)
    ([' '] ++ (p ++ (" port ".toList ++ pn)))
    hA4 wf4 r4 (by decide) (by decide) (headWS_space _)
  have hA5 : ∀ c ∈ t5.buf, utf8Size c = 1 := by rw [b5]; exact hA4
  obtain ⟨t6, e6, b6, r6, wf6⟩ := next_word_flat t5 1 [' '] (p)
    (" port ".toList ++ pn)
    hA5 wf5 r5 (by decide) hp (headWS_space _)
  have hA6 : ∀ c ∈ t6.buf, utf8Size c = 1 := by rw [b6]; exact hA5
  obtain ⟨t7, e7, b7, r7, wf7⟩ := next_word_flat t6 1 [' '] ("port".toList)
    ([' '] ++ pn)
    hA6 wf6 r6 (by decide) (by decide) (headWS_space _)
  have hA7 : ∀ c ∈ t7.buf, utf8Size c = 1 := by rw [b7]; exact hA6
  obtain ⟨t8, e8, b8, r8, wf8⟩ := next_word_flat t7 1 [' '] (pn)
    ([])
    hA7 wf7 (by rw [List.append_nil]; exact r7) (by decide) hpn (Or.inl rfl)
  have hA8 : ∀ c ∈ t8.buf, utf8Size c = 1 := by rw [b8]; exact hA7
  have e9 := next_word_flat_none 1 hA8 wf8 (by rw [r8]; simp)
  have pe1 : Netrc.parse_entry Netrc.init ⟨[], t1, 1⟩ ("machine".toList) MachineRef.Nothing =
      some (Except.ok (MachineRef.Host 0), ⟨[⟨h, Machine.init⟩], none, []⟩, ⟨[], t2, 1⟩) :=
    entry_machine e2
  have pe2 : Netrc.parse_entry ⟨[⟨h, Machine.init⟩], none, []⟩ ⟨[], t3, 1⟩
      ("login".toList) (MachineRef.Host 0) =
      some (Except.ok (MachineRef.Host 0), ⟨[⟨h, ⟨l, none, none, none⟩⟩], none, []⟩,
        ⟨[], t4, 1⟩) :=
    entry_login (m := Machine.init) rfl e4
  have pe3 : Netrc.parse_entry ⟨[⟨h, ⟨l, none, none, none⟩⟩], none, []⟩ ⟨[], t5, 1⟩
      ("password".toList) (MachineRef.Host 0) =
      some (Except.ok (MachineRef.Host 0), ⟨[⟨h, ⟨l, some p, none, none⟩⟩], none, []⟩,
        ⟨[], t6, 1⟩) :=
    entry_password (m := ⟨l, none, none, none⟩) rfl e6
  have pe4 : Netrc.parse_entry ⟨[⟨h, ⟨l, some p, none, none⟩⟩], none, []⟩ ⟨[], t7, 1⟩
      ("port".toList) (MachineRef.Host 0) =
      some (Except.ok (MachineRef.Host 0), ⟨[⟨h, ⟨l, some p, none, some n⟩⟩], none, []⟩,
        ⟨[], t8, 1⟩) :=
    entry_port_ok (m := ⟨l, some p, none, none⟩) rfl e8 hn
  obtain ⟨k, hk⟩ : ∃ k, byteLen input = k + 5 := by
    have hBL : byteLen input = input.length := byteLen_ascii hAin
    exact ⟨byteLen input - 5, by omega⟩
  simp only [Netrc.parse, hk]
  rw [parseLoopF_word_ok (k + 5) (by rw [next_word_init h0 hnl]; exact e1) pe1]
  rw [show k + 5 = k + 4 + 1 from rfl, parseLoopF_word_ok (k + 4) e3 pe2]
  rw [show k + 4 = k + 3 + 1 from rfl, parseLoopF_word_ok (k + 3) e5 pe3]
  rw [show k + 3 = k + 2 + 1 from rfl, parseLoopF_word_ok (k + 2) e7 pe4]
  rw [show k + 2 = k + 1 + 1 from rfl, parseLoopF_done (k + 1) e9]

/-- C1 counterexample: on `machine m login a password b port 1` the parsed
host's password is `b` (the `<p>` word), not `a` (the `<l>` word) as the
claim states; and on the word `éx` for `<h>` — a legitimate whitespace-free
word — the parse does not succeed at all: the byte-indexed cursor lands
inside `é` after the first word pull, re-reads its final byte as the word
`x`, and fails with an unknown-entry error. -/
theorem C1_counterexample :
    Netrc.parse ("machine m login a password b port 1".toList) =
      some (Except.ok ⟨[⟨"m".toList, ⟨"a".toList, some ("b".toList), none, some 1⟩⟩],
        none, []⟩) ∧
    Netrc.parse ("machine m login a password b port 1".toList) ≠
      some (Except.ok ⟨[⟨"m".toList, ⟨"a".toList, some ("a".toList), none, some 1⟩⟩],
        none, []⟩) ∧
    Netrc.parse ("machine éx login a password b port 1".toList) =
      some (Except.error ⟨"Unknown entry `x'", 1⟩) := ⟨by decide, by decide, by decide⟩

/-- C1 witness: the amended theorem applied at a concrete input. -/
theorem C1_witness :
    IsWord ("m".toList) ∧ IsWord ("a".toList) ∧ IsWord ("b".toList) ∧
    IsWord ("42".toList) ∧ Ascii ("m".toList) ∧ Ascii ("a".toList) ∧
    Ascii ("b".toList) ∧ Ascii ("42".toList) ∧ parseU16 ("42".toList) = some 42 ∧
    Netrc.parse ("machine ".toList ++ ("m".toList ++ (" login ".toList ++ ("a".toList ++
        (" password ".toList ++ ("b".toList ++ (" port ".toList ++ "42".toList))))))) =
      some (Except.ok ⟨[⟨"m".toList, ⟨"a".toList, some ("b".toList), none, some 42⟩⟩],
        none, []⟩) :=
  ⟨by decide, by decide, by decide, by decide, by decide, by decide, by decide, by decide,
    by decide,
    C1_thm ("m".toList) ("a".toList) ("b".toList) ("42".toList) 42
      (by decide) (by decide) (by decide) (by decide)
      (by decide) (by decide) (by decide) (by decide) (by decide)⟩

/-- C2 (confirmed): dispatching a field keyword (`login`, `password`,
`account`, `port`) while the current-target reference is none fails with a
parse error "No machine defined for <field>" at the lexer's current line
number, leaving the aggregate and lexer untouched; in particular the input
`password x` fails with "No machine defined for password" at line 1. -/
theorem C2_thm :
    (∀ (netrc : Netrc) (lx : Lexer),
      Netrc.parse_entry netrc lx ("login".toList) MachineRef.Nothing =
        some (Except.error ⟨"No machine defined for login", lx.lnum⟩, netrc, lx)) ∧
    (∀ (netrc : Netrc) (lx : Lexer),
      Netrc.parse_entry netrc lx ("password".toList) MachineRef.Nothing =
        some (Except.error ⟨"No machine defined for password", lx.lnum⟩, netrc, lx)) ∧
    (∀ (netrc : Netrc) (lx : Lexer),
      Netrc.parse_entry netrc lx ("account".toList) MachineRef.Nothing =
        some (Except.error ⟨"No machine defined for account", lx.lnum⟩, netrc, lx)) ∧
    (∀ (netrc : Netrc) (lx : Lexer),
      Netrc.parse_entry netrc lx ("port".toList) MachineRef.Nothing =
        some (Except.error ⟨"No machine defined for port", lx.lnum⟩, netrc, lx)) ∧
    Netrc.parse ("password x".toList) =
      some (Except.error ⟨"No machine defined for password", 1⟩) :=
  ⟨fun _ _ => rfl, fun _ _ => rfl, fun _ _ => rfl, fun _ _ => rfl, by decide⟩

/-- C3 (corrected): whenever the macdef line's remainder is a byte slice at
a character boundary (the slice otherwise panics — and, the cursor counting
characters rather than bytes, after a multi-byte macro name the remainder
starts mid-name rather than after it, refuted in `C3_counterexample`), the
captured body is that remainder followed by the subsequent whole raw lines
up to and including the first blank (empty or newline-only) line, or to end
of input; the macro is appended at the end of the macro list, so two
consecutive macdef blocks yield two independent entries in order of
appearance. -/
theorem C3_thm :
    (∀ (lx : Lexer) (rem : Str), Tokens.remaining lx.line = some rem →
      ∃ lxr : Lexer,
        Lexer.next_subcommands lx = some (rem ++ specCapture lx.buf, lxr)) ∧
    (∀ (netrc : Netrc) (lx : Lexer) (cm : MachineRef) (name rem : Str) (lx' : Lexer),
      Lexer.next_word lx = some (some name, lx') →
      Tokens.remaining lx'.line = some rem →
      ∃ lxr : Lexer,
        Netrc.parse_entry netrc lx ("macdef".toList) cm =
          some (Except.ok MachineRef.Nothing,
            { netrc with macros := netrc.macros ++ [⟨name, rem ++ specCapture lx'.buf⟩] },
            lxr)) ∧
    Netrc.parse ("macdef a\nx\n\nmacdef b\ny\n\n".toList) =
      some (Except.ok ⟨[], none, [⟨"a".toList, "\nx\n\n".toList⟩,
        ⟨"b".toList, "\ny\n\n".toList⟩]⟩) := by
  refine ⟨fun lx rem hrem => subcommands_capture lx hrem, ?_, by decide⟩
  intro netrc lx cm name rem lx' he hrem
  obtain ⟨lxr, hsub⟩ := subcommands_capture lx' hrem
  exact ⟨lxr, by rw [entry_macdef he hsub]⟩

/-- C3 counterexample: for `macdef éx` the claim promises the body
`"\nfoo\n\n"` — the text following the macro name — but the byte-indexed
remainder starts inside the name's final character, so the captured body is
`"x\nfoo\n\n"`, repeating the last letter of the name. -/
theorem C3_counterexample :
    Netrc.parse ("macdef éx\nfoo\n\n".toList) =
      some (Except.ok ⟨[], none, [⟨"éx".toList, ("x\nfoo\n\n".toList : Str)⟩]⟩) ∧
    ("x\nfoo\n\n".toList : Str) ≠ "\nfoo\n\n".toList := ⟨by decide, by decide⟩

/-- C3 witness: the macdef entry part applied at a concrete input. -/
theorem C3_witness :
    Lexer.next_word ⟨"\n".toList, Tokens.new ("x".toList), 1⟩ =
      some (some ("x".toList), ⟨"\n".toList, ⟨"x".toList, 1⟩, 1⟩) ∧
    Tokens.remaining (⟨"x".toList, 1⟩ : Tokens) = some [] ∧
    ∃ lxr : Lexer,
      Netrc.parse_entry Netrc.init ⟨"\n".toList, Tokens.new ("x".toList), 1⟩
          ("macdef".toList) MachineRef.Nothing =
        some (Except.ok MachineRef.Nothing, ⟨[], none, [⟨"x".toList, "\n".toList⟩]⟩,
          lxr) :=
  ⟨by decide, by decide,
    C3_thm.2.1 Netrc.init ⟨"\n".toList, Tokens.new ("x".toList), 1⟩
      MachineRef.Nothing ("x".toList) [] ⟨"\n".toList, ⟨"x".toList, 1⟩, 1⟩
      (by decide) (by decide)⟩

/-- C4 (confirmed): whenever a `macdef` entry dispatch succeeds, the
returned current-target reference is none, so a field keyword appearing
right after a completed macro definition fails with "No machine defined for
<field>" even when a machine was active before the macdef. -/
theorem C4_thm :
    (∀ (netrc : Netrc) (lx : Lexer) (cm : MachineRef) (r : MachineRef)
        (netrc' : Netrc) (lx' : Lexer),
      Netrc.parse_entry netrc lx ("macdef".toList) cm =
        some (Except.ok r, netrc', lx') →
      r = MachineRef.Nothing) ∧
    Netrc.parse ("machine m macdef x\n\nlogin y".toList) =
      some (Except.error ⟨"No machine defined for login", 3⟩) := by
  refine ⟨?_, by decide⟩
  intro netrc lx cm r netrc' lx' hpe
  rcases hne : Lexer.next_word_or_err lx with _ | ⟨res, lxw⟩
  · simp only [Netrc.parse_entry,
      show entryOf ("macdef".toList) = Entry.macdefK from rfl, hne] at hpe
    exact Option.noConfusion hpe
  · cases res with
    | ok name =>
      cases hsub : Lexer.next_subcommands lxw with
      | none =>
        simp only [Netrc.parse_entry,
          show entryOf ("macdef".toList) = Entry.macdefK from rfl, hne, hsub] at hpe
        exact Option.noConfusion hpe
      | some rr =>
        simp only [Netrc.parse_entry,
          show entryOf ("macdef".toList) = Entry.macdefK from rfl, hne, hsub,
          Option.some.injEq, Prod.mk.injEq, Except.ok.injEq] at hpe
        exact hpe.1.symm
    | error e =>
      simp only [Netrc.parse_entry,
        show entryOf ("macdef".toList) = Entry.macdefK from rfl, hne] at hpe
      simp at hpe

/-- C4 witness: the macdef reset applied at a concrete input where the
default machine was the active target beforehand. -/
theorem C4_witness :
    Netrc.parse_entry Netrc.init ⟨[], Tokens.new ("x".toList), 1⟩ ("macdef".toList)
        MachineRef.Default =
      some (Except.ok MachineRef.Nothing, ⟨[], none, [⟨"x".toList, []⟩]⟩,
        ⟨[], Tokens.empty, 1⟩) ∧
    MachineRef.Nothing = MachineRef.Nothing :=
  ⟨by decide, C4_thm.1 Netrc.init ⟨[], Tokens.new ("x".toList), 1⟩ MachineRef.Default
    MachineRef.Nothing ⟨[], none, [⟨"x".toList, []⟩]⟩ ⟨[], Tokens.empty, 1⟩ (by decide)⟩

/-- C5 counterexample: on `machine m\nport\nx` the port-parse error carries
line 3 — the line from which the value word `x` was read — not line 2, the
line containing the `port` keyword as the claim states. -/
theorem C5_counterexample :
    Netrc.parse ("machine m\nport\nx".toList) ≠
      some (Except.error ⟨"Unable to parse port number `x'", 2⟩) ∧
    Netrc.parse ("machine m\nport\nx".toList) =
      some (Except.error ⟨"Unable to parse port number `x'", 3⟩) := ⟨by decide, by decide⟩

/-- C5 (corrected): when a `port` keyword with an active current target is
followed by a word not representable as a 16-bit unsigned integer, the
dispatch fails with "Unable to parse port number `<value>'" at the line
number of the line from which the value word was read (equal to the line of
`port` when both share a line, but not in general — see
`C5_counterexample`), and the aggregate — in particular the target
machine's port field — is left entirely unchanged. -/
theorem C5_thm :
    ∀ (netrc : Netrc) (lx : Lexer) (cm : MachineRef) (m : Machine)
      (w : Str) (lx' : Lexer),
      Netrc.find_machine netrc cm = some m →
      Lexer.next_word lx = some (some w, lx') →
      parseU16 w = none →
      Netrc.parse_entry netrc lx ("port".toList) cm =
        some (Except.error ⟨"Unable to parse port number `" ++ String.mk w ++ "'",
          lx'.lnum⟩, netrc, lx') :=
  fun _ _ _ _ _ _ hf he hp => entry_port_bad hf he hp

/-- C5 witness: the amended theorem applied at a concrete input. -/
theorem C5_witness :
    Netrc.find_machine ⟨[], some Machine.init, []⟩ MachineRef.Default =
      some Machine.init ∧
    Lexer.next_word ⟨[], Tokens.new ("quux".toList), 1⟩ =
      some (some ("quux".toList), ⟨[], ⟨"quux".toList, 4⟩, 1⟩) ∧
    parseU16 ("quux".toList) = none ∧
    Netrc.parse_entry ⟨[], some Machine.init, []⟩ ⟨[], Tokens.new ("quux".toList), 1⟩
        ("port".toList) MachineRef.Default =
      some (Except.error ⟨"Unable to parse port number `quux'", 1⟩,
        ⟨[], some Machine.init, []⟩, ⟨[], ⟨"quux".toList, 4⟩, 1⟩) :=
  ⟨by decide, by decide, by decide,
    C5_thm ⟨[], some Machine.init, []⟩ ⟨[], Tokens.new ("quux".toList), 1⟩
      MachineRef.Default Machine.init ("quux".toList) ⟨[], ⟨"quux".toList, 4⟩, 1⟩
      (by decide) (by decide) (by decide)⟩

/-- C6 (code bug): on the line `é x`, the first word pull returns `é` and
leaves the cursor at 1 — one count per character, as in the source — but the
source slices `&self.buf[self.cur..]` by bytes, and byte 1 lies inside the
two-byte character `é`, so the second word pull panics (the model's `none`)
instead of yielding the remaining word `x`; the claim says no word pull on
any line can fail or abort. -/
theorem C6_thm :
    Tokens.next ⟨['é', ' ', 'x'], 0⟩ = some (some ['é'], ⟨['é', ' ', 'x'], 1⟩) ∧
    Tokens.next ⟨['é', ' ', 'x'], 1⟩ = none := ⟨by decide, by decide⟩

/-- C7 (confirmed): the line counter advances exactly once per physical
line actually read from the source — including blank lines — and never on
tokenizer cursor movement: `read_line` increments `lnum` exactly when a
nonempty line was split off and returns that line's byte count, a word
served from the current line leaves the lexer's `lnum` (and whole state
besides the cursor) unchanged, and across any completed `next_word` call
the counter grows by exactly the number of physical lines consumed;
consequently errors report the physical line of the offending word, with
blank lines interleaved (`machine m\n\n\nfoo` errors at line 4) or with
several words sharing one line (`machine m foo` errors at line 1). -/
theorem C7_thm :
    (∀ (lx : Lexer) (c : Str),
      ((Lexer.read_line lx c).2).lnum =
        (if (splitLine lx.buf).1.length = 0 then lx.lnum else lx.lnum + 1) ∧
      (Lexer.read_line lx c).1.1 = byteLen (splitLine lx.buf).1) ∧
    (∀ (lx : Lexer) (w : Str) (t' : Tokens),
      Tokens.next lx.line = some (some w, t') →
      Lexer.next_word lx = some (some w, ⟨lx.buf, t', lx.lnum⟩)) ∧
    (∀ (lx : Lexer) (o : Option Str) (lx' : Lexer),
      Lexer.next_word lx = some (o, lx') →
      lx'.lnum = lx.lnum + ((linesOf lx.buf).length - (linesOf lx'.buf).length)) ∧
    Netrc.parse ("machine m\n\n\nfoo".toList) =
      some (Except.error ⟨"Unknown entry `foo'", 4⟩) ∧
    Netrc.parse ("machine m foo".toList) =
      some (Except.error ⟨"Unknown entry `foo'", 1⟩) := by
  refine ⟨?_, ?_, ?_, by decide, by decide⟩
  · intro lx c
    rcases hsl : splitLine lx.buf with ⟨l, rest⟩
    constructor
    · by_cases hl0 : l.length = 0
      · have hle : l = [] := by
          cases l with
          | nil => rfl
          | cons _ _ => simp at hl0
        simp [Lexer.read_line, hsl, hle, byteLen, hl0]
      · have hlne : l ≠ [] := by
          intro hc
          rw [hc] at hl0
          simp at hl0
        have hbl : byteLen l ≠ 0 := byteLen_ne_zero hlne
        simp [Lexer.read_line, hsl, hbl, hl0]
    · simp [Lexer.read_line, hsl]
  · intro lx w t' hT
    simp [Lexer.next_word, Lexer.next_wordF, hT]
  · intro lx o lx' he
    exact (next_wordF_lnum (lx.buf.length + 1) lx (by omega) he).2

/-- C7 witness: a word served from the current line leaves the line number
unchanged. -/
theorem C7_witness :
    Tokens.next (Tokens.new ("ab".toList)) =
      some (some ("ab".toList), ⟨"ab".toList, 2⟩) ∧
    Lexer.next_word ⟨[], Tokens.new ("ab".toList), 5⟩ =
      some (some ("ab".toList), ⟨[], ⟨"ab".toList, 2⟩, 5⟩) :=
  ⟨by decide, C7_thm.2.1 ⟨[], Tokens.new ("ab".toList), 5⟩ ("ab".toList)
    ⟨"ab".toList, 2⟩ (by decide)⟩

/-- C8 (corrected): an input `default <field> <v>` with no preceding
`machine` — the value word free of whitespace and made of single-byte
characters, the range on which the source's byte-indexed cursor is reliable
(a multi-byte value is refuted in `C8_counterexample`) — parses
successfully, the resulting default machine has `<field>` set to `<v>` (the
port value being its parsed 16-bit integer), and the host sequence stays
empty. -/
theorem C8_thm :
    (∀ v : Str, IsWord v → Ascii v →
      Netrc.parse ("default login ".toList ++ v) =
        some (Except.ok ⟨[], some ⟨v, none, none, none⟩, []⟩)) ∧
    (∀ v : Str, IsWord v → Ascii v →
      Netrc.parse ("default password ".toList ++ v) =
        some (Except.ok ⟨[], some ⟨[], some v, none, none⟩, []⟩)) ∧
    (∀ v : Str, IsWord v → Ascii v →
      Netrc.parse ("default account ".toList ++ v) =
        some (Except.ok ⟨[], some ⟨[], none, some v, none⟩, []⟩)) ∧
    (∀ (v : Str) (n : Nat), IsWord v → Ascii v → parseU16 v = some n →
      Netrc.parse ("default port ".toList ++ v) =
        some (Except.ok ⟨[], some ⟨[], none, none, some n⟩, []⟩)) := by
  refine ⟨?_, ?_, ?_, ?_⟩
  · intro v hv hAv
    set input : Str := ("default login ".toList ++ v) with hin
    have hge : 3 ≤ input.length := by rw [hin]; simp [List.length_append]
    have h0 : input ≠ [] := by intro hc; rw [hc] at hge; simp at hge
    have hnl : '\n' ∉ input := by
      rw [hin]; intro hm
      simp only [List.mem_append] at hm
      rcases hm with hm | hm
      · exact absurd hm (by decide)
      · exact word_no_newline hv hm
    have hAin : ∀ c ∈ input, utf8Size c = 1 := by
      rw [hin]
      intro c hm
      simp only [List.mem_append] at hm
      rcases hm with hm | hm
      · exact (by decide : Ascii ("default login ".toList)) c hm
      · exact hAv c hm
    obtain ⟨t1, e1, b1, r1, wf1⟩ := next_word_flat (Tokens.new input) 1
      ([]) ("default".toList)
      ([' '] ++ ("login".toList ++ ([' '] ++ v)))
      hAin (by simp [Tokens.new]) (by rw [hin]; rfl) (by simp) (by decide) (headWS_space _)
    have hA1 : ∀ c ∈ t1.buf, utf8Size c = 1 := by rw [b1]; exact hAin
    obtain ⟨t2, e2, b2, r2, wf2⟩ := next_word_flat t1 1 [' '] ("login".toList)
      ([' '] ++ v)
      hA1 wf1 r1 (by decide) (by decide) (headWS_space _)
    have hA2 : ∀ c ∈ t2.buf, utf8Size c = 1 := by rw [b2]; exact hA1
    obtain ⟨t3, e3, b3, r3, wf3⟩ := next_word_flat t2 1 [' '] (v)
      ([])
      hA2 wf2 (by rw [List.append_nil]; exact r2) (by decide) hv (Or.inl rfl)
    have hA3 : ∀ c ∈ t3.buf, utf8Size c = 1 := by rw [b3]; exact hA2
    have e4 := next_word_flat_none 1 hA3 wf3 (by rw [r3]; simp)
    have pe1 : Netrc.parse_entry Netrc.init ⟨[], t1, 1⟩ ("default".toList)
        MachineRef.Nothing =
        some (Except.ok MachineRef.Default, ⟨[], some Machine.init, []⟩, ⟨[], t1, 1⟩) :=
      entry_default
    have pe2 : Netrc.parse_entry ⟨[], some Machine.init, []⟩ ⟨[], t2, 1⟩
        ("login".toList) MachineRef.Default =
        some (Except.ok MachineRef.Default, ⟨[], some ⟨v, none, none, none⟩, []⟩,
          ⟨[], t3, 1⟩) :=
      entry_login (m := Machine.init) rfl e3
    obtain ⟨k, hk⟩ : ∃ k, byteLen input = k + 3 := by
      have hBL : byteLen input = input.length := byteLen_ascii hAin
      exact ⟨byteLen input - 3, by omega⟩
    simp only [Netrc.parse, hk]
    rw [parseLoopF_word_ok (k + 3) (by rw [next_word_init h0 hnl]; exact e1) pe1]
    rw [show k + 3 = k + 2 + 1 from rfl, parseLoopF_word_ok (k + 2) e2 pe2]
    rw [show k + 2 = k + 1 + 1 from rfl, parseLoopF_done (k + 1) e4]
  · intro v hv hAv
    set input : Str := ("default password ".toList ++ v) with hin
    have hge : 3 ≤ input.length := by rw [hin]; simp [List.length_append]
    have h0 : input ≠ [] := by intro hc; rw [hc] at hge; simp at hge
    have hnl : '\n' ∉ input := by
      rw [hin]; intro hm
      simp only [List.mem_append] at hm
      rcases hm with hm | hm
      · exact absurd hm (by decide)
      · exact word_no_newline hv hm
    have hAin : ∀ c ∈ input, utf8Size c = 1 := by
      rw [hin]
      intro c hm
      simp only [List.mem_append] at hm
      rcases hm with hm | hm
      · exact (by decide : Ascii ("default password ".toList)) c hm
      · exact hAv c hm
    obtain ⟨t1, e1, b1, r1, wf1⟩ := next_word_flat (Tokens.new input) 1
      ([]) ("default".toList)
      ([' '] ++ ("password".toList ++ ([' '] ++ v)))
      hAin (by simp [Tokens.new]) (by rw [hin]; rfl) (by simp) (by decide) (headWS_space _)
    have hA1 : ∀ c ∈ t1.buf, utf8Size c = 1 := by rw [b1]; exact hAin
    obtain ⟨t2, e2, b2, r2, wf2⟩ := next_word_flat t1 1 [' '] ("password".toList)
      ([' '] ++ v)
      hA1 wf1 r1 (by decide) (by decide) (headWS_space _)
    have hA2 : ∀ c ∈ t2.buf, utf8Size c = 1 := by rw [b2]; exact hA1
    obtain ⟨t3, e3, b3, r3, wf3⟩ := next_word_flat t2 1 [' '] (v)
      ([])
      hA2 wf2 (by rw [List.append_nil]; exact r2) (by decide) hv (Or.inl rfl)
    have hA3 : ∀ c ∈ t3.buf, utf8Size c = 1 := by rw [b3]; exact hA2
    have e4 := next_word_flat_none 1 hA3 wf3 (by rw [r3]; simp)
    have pe1 : Netrc.parse_entry Netrc.init ⟨[], t1, 1⟩ ("default".toList)
        MachineRef.Nothing =
        some (Except.ok MachineRef.Default, ⟨[], some Machine.init, []⟩, ⟨[], t1, 1⟩) :=
      entry_default
    have pe2 : Netrc.parse_entry ⟨[], some Machine.init, []⟩ ⟨[], t2, 1⟩
        ("password".toList) MachineRef.Default =
        some (Except.ok MachineRef.Default, ⟨[], some ⟨[], some v, none, none⟩, []⟩,
          ⟨[], t3, 1⟩) :=
      entry_password (m := Machine.init) rfl e3
    obtain ⟨k, hk⟩ : ∃ k, byteLen input = k + 3 := by
      have hBL : byteLen input = input.length := byteLen_ascii hAin
      exact ⟨byteLen input - 3, by omega⟩
    simp only [Netrc.parse, hk]
    rw [parseLoopF_word_ok (k + 3) (by rw [next_word_init h0 hnl]; exact e1) pe1]
    rw [show k + 3 = k + 2 + 1 from rfl, parseLoopF_word_ok (k + 2) e2 pe2]
    rw [show k + 2 = k + 1 + 1 from rfl, parseLoopF_done (k + 1) e4]
  · intro v hv hAv
    set input : Str := ("default account ".toList ++ v) with hin
    have hge : 3 ≤ input.length := by rw [hin]; simp [List.length_append]
    have h0 : input ≠ [] := by intro hc; rw [hc] at hge; simp at hge
    have hnl : '\n' ∉ input := by
      rw [hin]; intro hm
      simp only [List.mem_append] at hm
      rcases hm with hm | hm
      · exact absurd hm (by decide)
      · exact word_no_newline hv hm
    have hAin : ∀ c ∈ input, utf8Size c = 1 := by
      rw [hin]
      intro c hm
      simp only [List.mem_append] at hm
      rcases hm with hm | hm
      · exact (by decide : Ascii ("default account ".toList)) c hm
      · exact hAv c hm
    obtain ⟨t1, e1, b1, r1, wf1⟩ := next_word_flat (Tokens.new input) 1
      ([]) ("default".toList)
      ([' '] ++ ("account".toList ++ ([' '] ++ v)))
      hAin (by simp [Tokens.new]) (by rw [hin]; rfl) (by simp) (by decide) (headWS_space _)
    have hA1 : ∀ c ∈ t1.buf, utf8Size c = 1 := by rw [b1]; exact hAin
    obtain ⟨t2, e2, b2, r2, wf2⟩ := next_word_flat t1 1 [' '] ("account".toList)
      ([' '] ++ v)
      hA1 wf1 r1 (by decide) (by decide) (headWS_space _)
    have hA2 : ∀ c ∈ t2.buf, utf8Size c = 1 := by rw [b2]; exact hA1
    obtain ⟨t3, e3, b3, r3, wf3⟩ := next_word_flat t2 1 [' '] (v)
      ([])
      hA2 wf2 (by rw [List.append_nil]; exact r2) (by decide) hv (Or.inl rfl)
    have hA3 : ∀ c ∈ t3.buf, utf8Size c = 1 := by rw [b3]; exact hA2
    have e4 := next_word_flat_none 1 hA3 wf3 (by rw [r3]; simp)
    have pe1 : Netrc.parse_entry Netrc.init ⟨[], t1, 1⟩ ("default".toList)
        MachineRef.Nothing =
        some (Except.ok MachineRef.Default, ⟨[], some Machine.init, []⟩, ⟨[], t1, 1⟩) :=
      entry_default
    have pe2 : Netrc.parse_entry ⟨[], some Machine.init, []⟩ ⟨[], t2, 1⟩
        ("account".toList) MachineRef.Default =
        some (Except.ok MachineRef.Default, ⟨[], some ⟨[], none, some v, none⟩, []⟩,
          ⟨[], t3, 1⟩) :=
      entry_account (m := Machine.init) rfl e3
    obtain ⟨k, hk⟩ : ∃ k, byteLen input = k + 3 := by
      have hBL : byteLen input = input.length := byteLen_ascii hAin
      exact ⟨byteLen input - 3, by omega⟩
    simp only [Netrc.parse, hk]
    rw [parseLoopF_word_ok (k + 3) (by rw [next_word_init h0 hnl]; exact e1) pe1]
    rw [show k + 3 = k + 2 + 1 from rfl, parseLoopF_word_ok (k + 2) e2 pe2]
    rw [show k + 2 = k + 1 + 1 from rfl, parseLoopF_done (k + 1) e4]
  · intro v n hv hAv hn
    set input : Str := ("default port ".toList ++ v) with hin
    have hge : 3 ≤ input.length := by rw [hin]; simp [List.length_append]
    have h0 : input ≠ [] := by intro hc; rw [hc] at hge; simp at hge
    have hnl : '\n' ∉ input := by
      rw [hin]; intro hm
      simp only [List.mem_append] at hm
      rcases hm with hm | hm
      · exact absurd hm (by decide)
      · exact word_no_newline hv hm
    have hAin : ∀ c ∈ input, utf8Size c = 1 := by
      rw [hin]
      intro c hm
      simp only [List.mem_append] at hm
      rcases hm with hm | hm
      · exact (by decide : Ascii ("default port ".toList)) c hm
      · exact hAv c hm
    obtain ⟨t1, e1, b1, r1, wf1⟩ := next_word_flat (Tokens.new input) 1
      ([]) ("default".toList)
      ([' '] ++ ("port".toList ++ ([' '] ++ v)))
      hAin (by simp [Tokens.new]) (by rw [hin]; rfl) (by simp) (by decide) (headWS_space _)
    have hA1 : ∀ c ∈ t1.buf, utf8Size c = 1 := by rw [b1]; exact hAin
    obtain ⟨t2, e2, b2, r2, wf2⟩ := next_word_flat t1 1 [' '] ("port".toList)
      ([' '] ++ v)
      hA1 wf1 r1 (by decide) (by decide) (headWS_space _)
    have hA2 : ∀ c ∈ t2.buf, utf8Size c = 1 := by rw [b2]; exact hA1
    obtain ⟨t3, e3, b3, r3, wf3⟩ := next_word_flat t2 1 [' '] (v)
      ([])
      hA2 wf2 (by rw [List.append_nil]; exact r2) (by decide) hv (Or.inl rfl)
    have hA3 : ∀ c ∈ t3.buf, utf8Size c = 1 := by rw [b3]; exact hA2
    have e4 := next_word_flat_none 1 hA3 wf3 (by rw [r3]; simp)
    have pe1 : Netrc.parse_entry Netrc.init ⟨[], t1, 1⟩ ("default".toList)
        MachineRef.Nothing =
        some (Except.ok MachineRef.Default, ⟨[], some Machine.init, []⟩, ⟨[], t1, 1⟩) :=
      entry_default
    have pe2 : Netrc.parse_entry ⟨[], some Machine.init, []⟩ ⟨[], t2, 1⟩
        ("port".toList) MachineRef.Default =
        some (Except.ok MachineRef.Default, ⟨[], some ⟨[], none, none, some n⟩, []⟩,
          ⟨[], t3, 1⟩) :=
      entry_port_ok (m := Machine.init) rfl e3 hn
    obtain ⟨k, hk⟩ : ∃ k, byteLen input = k + 3 := by
      have hBL : byteLen input = input.length := byteLen_ascii hAin
      exact ⟨byteLen input - 3, by omega⟩
    simp only [Netrc.parse, hk]
    rw [parseLoopF_word_ok (k + 3) (by rw [next_word_init h0 hnl]; exact e1) pe1]
    rw [show k + 3 = k + 2 + 1 from rfl, parseLoopF_word_ok (k + 2) e2 pe2]
    rw [show k + 2 = k + 1 + 1 from rfl, parseLoopF_done (k + 1) e4]

/-- C8 counterexample: on `default login éx` — a whitespace-free value word
with a multi-byte character — the claim promises success with the default
machine's login set to `éx`, but the byte-indexed cursor lands inside `é`
after pulling the word, re-reads its final byte as the word `x`, and the
parse fails with an unknown-entry error. -/
theorem C8_counterexample :
    Netrc.parse ("default login ".toList ++ "éx".toList) =
      some (Except.error ⟨"Unknown entry `x'", 1⟩) ∧
    Netrc.parse ("default login ".toList ++ "éx".toList) ≠
      some (Except.ok ⟨[], some ⟨"éx".toList, none, none, none⟩, []⟩) :=
  ⟨by decide, by decide⟩

/-- C8 witness: the amended theorem applied at concrete inputs. -/
theorem C8_witness :
    IsWord ("def".toList) ∧ Ascii ("def".toList) ∧ Ascii ("99".toList) ∧
    parseU16 ("99".toList) = some 99 ∧
    Netrc.parse ("default login ".toList ++ "def".toList) =
      some (Except.ok ⟨[], some ⟨"def".toList, none, none, none⟩, []⟩) ∧
    Netrc.parse ("default port ".toList ++ "99".toList) =
      some (Except.ok ⟨[], some ⟨[], none, none, some 99⟩, []⟩) :=
  ⟨by decide, by decide, by decide, by decide,
    C8_thm.1 ("def".toList) (by decide) (by decide),
    C8_thm.2.2.2 ("99".toList) 99 (by decide) (by decide) (by decide)⟩

/-- C9 (corrected): the empty input and every input made of single-byte
whitespace characters parse successfully to the empty aggregate — no hosts,
no default, no macros. The claim's full scope, every whitespace-only input,
is refuted in `C9_counterexample`: multi-byte Unicode whitespace such as
U+00A0 trips the byte-indexed cursor instead. -/
theorem C9_thm :
    Netrc.parse [] = some (Except.ok ⟨[], none, []⟩) ∧
    (∀ input : Str, (∀ c ∈ input, isWS c = true ∧ utf8Size c = 1) →
      Netrc.parse input = some (Except.ok ⟨[], none, []⟩)) := by
  refine ⟨by decide, ?_⟩
  intro input hall
  show Netrc.parseLoopF (byteLen input + 1) Netrc.init (Lexer.new input)
    MachineRef.Nothing = _
  obtain ⟨lx', hnw⟩ := next_wordF_all_ws (input.length + 1) (Lexer.new input)
    (by simp only [Lexer.new]; omega) (Nat.le_refl 0)
    (by intro c hc; simp [Lexer.new, Tokens.empty] at hc)
    hall
    (by intro c hc; simp [Lexer.new, Tokens.empty] at hc)
  have hnw' : Lexer.next_word (Lexer.new input) = some (none, lx') := hnw
  rw [parseLoopF_done (byteLen input) hnw']
  rfl

/-- C9 counterexample: the input consisting of the single whitespace
character U+00A0 (no-break space) makes the parse panic (the model's
`none`), and U+00A0 followed by a newline produces an unknown-entry error —
in both cases the whitespace-only input does not yield the empty
aggregate. -/
theorem C9_counterexample :
    (∀ c ∈ ([Char.ofNat 0xA0, '\n'] : Str), isWS c = true) ∧
    Netrc.parse [Char.ofNat 0xA0, '\n'] =
      some (Except.error ⟨"Unknown entry `'", 1⟩) ∧
    Netrc.parse [Char.ofNat 0xA0] = none := ⟨by decide, by decide, by decide⟩

/-- C9 witness: a concrete whitespace-and-blank-lines input. -/
theorem C9_witness :
    (∀ c ∈ (" \n \n\t ".toList : Str), isWS c = true ∧ utf8Size c = 1) ∧
    Netrc.parse (" \n \n\t ".toList) = some (Except.ok ⟨[], none, []⟩) :=
  ⟨by decide, C9_thm.2 (" \n \n\t ".toList) (by decide)⟩

/-- C10 (confirmed): in every aggregate/current-target state reachable by
the parse loop, a current target `host(i)` satisfies `i + 1 = hosts.length`
— `i` is in bounds and is the index of the most recently appended host — so
resolving the target for a field keyword never indexes out of bounds. -/
theorem C10_thm :
    ∀ (netrc : Netrc) (cm : MachineRef), Reachable netrc cm →
      ∀ i : Nat, cm = MachineRef.Host i →
        i + 1 = netrc.hosts.length ∧ (Netrc.find_machine netrc cm).isSome := by
  intro netrc cm hr i hi
  have hlen := reachable_host_index netrc cm hr i hi
  refine ⟨hlen, ?_⟩
  rw [hi]
  exact find_machine_host_isSome (by omega)

/-- C10 witness: the invariant at the state reached after one `machine m`
entry. -/
theorem C10_witness :
    0 + 1 = (⟨[⟨"m".toList, Machine.init⟩], none, []⟩ : Netrc).hosts.length ∧
    (Netrc.find_machine ⟨[⟨"m".toList, Machine.init⟩], none, []⟩
      (MachineRef.Host 0)).isSome :=
  C10_thm ⟨[⟨"m".toList, Machine.init⟩], none, []⟩ (MachineRef.Host 0)
    (Reachable.step Netrc.init MachineRef.Nothing ⟨[], Tokens.new ("m".toList), 1⟩
      ("machine".toList) (MachineRef.Host 0) ⟨[⟨"m".toList, Machine.init⟩], none, []⟩
      ⟨[], ⟨"m".toList, 1⟩, 1⟩ Reachable.init (by decide))
    0 rfl
